import Mathlib

/-
  Verification of the vulnix core (derivation.py, nvd.py) against its
  natural-language specification.  The Python sources are shallowly embedded
  as executable Lean definitions; theorems about these definitions settle the
  frozen claims.  Code absent from the source tree (utils.compare_versions,
  vulnerability.Vulnerability) is modelled from the specification text and
  marked as such in its doc comment.
-/

set_option maxHeartbeats 1000000

namespace Vulnix

/-! ## Character and string helpers -/

/-- ASCII whitespace, the characters Python's regex class backslash-s matches
on ASCII text (the derivation names and patch texts in scope are ASCII). -/
def isSp (c : Char) : Bool :=
  c = ' ' || c = '\t' || c = '\n' || c = '\r' || c = '\x0b' || c = '\x0c'

/-- Python str.lower on ASCII text. -/
def strLower (s : String) : String := ⟨s.data.map Char.toLower⟩

/-- Python str.upper on ASCII text. -/
def strUpper (s : String) : String := ⟨s.data.map Char.toUpper⟩

/-- Python str.endswith, at the character-list level. -/
def endsWithL (cs suf : List Char) : Bool :=
  decide (suf.length ≤ cs.length) && (cs.drop (cs.length - suf.length) == suf)

/-- Lookup in an association list (first match wins). -/
def alookup {β : Type} (k : String) : List (String × β) → Option β
  | [] => none
  | (k', v) :: rest => if k = k' then some v else alookup k rest

/-- Python string `<`: lexicographic comparison by code point, expressed on
the character lists so that it is kernel-reducible. -/
def pyLt (a b : String) : Prop := a.data < b.data

instance (a b : String) : Decidable (pyLt a b) := by
  unfold pyLt
  infer_instance

/-- Insertion/update in a key-sorted association list, modelling assignment
`tree[k] = v` on a `BTrees.OOBTree` (a mapping sorted by Python string
comparison of keys). -/
def btSet {β : Type} (k : String) (v : β) : List (String × β) → List (String × β)
  | [] => [(k, v)]
  | (k', v') :: rest =>
    if pyLt k k' then (k, v) :: (k', v') :: rest
    else if k = k' then (k, v) :: rest
    else (k', v') :: btSet k v rest

/-! ## Version comparison -/

/-- One maximal run of a version string: either a run of digits (kept as its
numeric value) or a run of non-digit characters. -/
inductive Run : Type where
  | num (n : Nat)
  | alpha (s : List Char)
deriving DecidableEq

/-- Close the run being accumulated, if any. -/
def pushRun (acc : List Run) : Option Run → List Run
  | none => acc
  | some r => acc ++ [r]

/-- One left-to-right pass accumulating maximal runs: digits extend a numeric
run (value times ten plus the digit), non-digits extend an alphabetic run,
and a change of kind closes the current run. -/
def splitRunsAux : List Run → Option Run → List Char → List Run
  | acc, cur, [] => pushRun acc cur
  | acc, cur, c :: rest =>
    if c.isDigit then
      match cur with
      | some (Run.num n) =>
        splitRunsAux acc (some (Run.num (n * 10 + (c.toNat - 48)))) rest
      | some (Run.alpha s) =>
        splitRunsAux (acc ++ [Run.alpha s]) (some (Run.num (c.toNat - 48))) rest
      | none => splitRunsAux acc (some (Run.num (c.toNat - 48))) rest
    else
      match cur with
      | some (Run.alpha s) => splitRunsAux acc (some (Run.alpha (s ++ [c]))) rest
      | some (Run.num n) =>
        splitRunsAux (acc ++ [Run.num n]) (some (Run.alpha [c])) rest
      | none => splitRunsAux acc (some (Run.alpha [c])) rest

/-- Modelled from the spec: `compare_versions` lives in `utils.py`, which is
absent from the source tree.  Per spec section 4.2, a version string is split
into alternating maximal runs of digits and non-digits, with `.` an ordinary
separator character. -/
def splitRuns (cs : List Char) : List Run := splitRunsAux [] none cs

/-- Lexicographic ordering of character lists (byte-wise comparison of
non-digit runs). -/
def lexCmp : List Char → List Char → Ordering
  | [], [] => Ordering.eq
  | [], _ :: _ => Ordering.lt
  | _ :: _, [] => Ordering.gt
  | a :: as, b :: bs =>
    if a < b then Ordering.lt
    else if b < a then Ordering.gt
    else lexCmp as bs

/-- Modelled from the spec: comparison of two corresponding runs — digit runs
numerically, non-digit runs byte-wise lexicographically.  A digit run sorts
before a non-digit run when the kinds differ (consistent with pre-release
markers sorting before releases). -/
def runCmp : Run → Run → Ordering
  | Run.num m, Run.num n => compare m n
  | Run.alpha s, Run.alpha t => lexCmp s t
  | Run.num _, Run.alpha _ => Ordering.lt
  | Run.alpha _, Run.num _ => Ordering.gt

/-- Whether a run list compares equal to the empty run list: every run is a
numeric run of zero. -/
def allZeroRuns : List Run → Bool
  | [] => true
  | Run.num 0 :: rs => allZeroRuns rs
  | _ => false

/-- Modelled from the spec: runs are compared in order; a run present on only
one side is compared against an implicit empty run — empty sorts before any
non-empty run, except that a numeric run of zero sorts equal to empty. -/
def runsCmp : List Run → List Run → Ordering
  | [], bs => if allZeroRuns bs then Ordering.eq else Ordering.lt
  | a :: as, [] => if allZeroRuns (a :: as) then Ordering.eq else Ordering.gt
  | a :: as, b :: bs =>
    match runCmp a b with
    | Ordering.eq => runsCmp as bs
    | o => o

/-- Modelled from the spec: `compare_versions(a, b)` returns -1, 0 or 1. -/
def compare_versions (a b : String) : Int :=
  match runsCmp (splitRuns a.data) (splitRuns b.data) with
  | Ordering.lt => -1
  | Ordering.eq => 0
  | Ordering.gt => 1

/-! ## Vulnerability records -/

/-- Modelled from the spec: the version predicate of an affected-product node
(`vulnerability.py` is absent from the source tree) — an exact version, or a
bounded range with inclusive/exclusive start and end. -/
inductive VPred : Type where
  | exactV (v : String)
  | rangeV (lo : Option String) (loIncl : Bool) (hi : Option String) (hiIncl : Bool)
deriving DecidableEq

/-- Modelled from the spec: evaluation of a version predicate using the
version comparator. -/
def VPred.eval : VPred → String → Bool
  | VPred.exactV v, x => compare_versions x v = 0
  | VPred.rangeV lo li hi hi_i, x =>
    (match lo with
     | none => true
     | some l => if li then compare_versions x l ≥ 0 else compare_versions x l > 0) &&
    (match hi with
     | none => true
     | some h => if hi_i then compare_versions x h ≤ 0 else compare_versions x h < 0)

/-- Modelled from the spec: an AffectedProductNode — a product name plus a
version predicate. -/
structure VNode : Type where
  product : String
  pred : VPred
deriving DecidableEq

/-- Modelled from the spec: a VulnerabilityRecord — a unique CVE identifier
and its affected-product nodes (summary fields are opaque to matching and
omitted). -/
structure Vulnerability : Type where
  cve_id : String
  nodes : List VNode
deriving DecidableEq

/-- Modelled from the spec: `Vulnerability.match(pname, version)` — whether
any node matches: product-name equality plus the node's version predicate. -/
def Vulnerability.vmatch (v : Vulnerability) (pname version : String) : Bool :=
  v.nodes.any (fun n => n.product == pname && n.pred.eval version)

/-! ## derivation.py: split_name -/

/-- Generic first-index search: the least `j` with `i ≤ j < i + fuel` and
`p j = true`. -/
def findIdxFrom (p : Nat → Bool) : Nat → Nat → Option Nat
  | _, 0 => none
  | i, fuel + 1 => if p i then some i else findIdxFrom p (i + 1) fuel

/-- The version group matched by `[0-9]\S*` followed by the `$` anchor.  In
Python (no MULTILINE) `$` matches at the end of the string or just before a
string-final newline, so the text after the dash matches exactly when it is
whitespace-free, or whitespace-free except for one final newline — which is
then not part of the captured group. -/
def versionTail (r : List Char) : Option (List Char) :=
  if r.all (fun c => !isSp c) then some r
  else if r.getLast? = some '\n' ∧ r.dropLast.all (fun c => !isSp c) = true then
    some r.dropLast
  else none

/-- Position `i` of `cs` is a split point accepted by the Python regex
`^(\S+?)-([0-9]\S*)$` of `derivation.py`: a non-empty all-non-whitespace
prefix, a `-`, then a digit opening a version group that reaches the `$`
anchor (end of string, or just before a string-final newline).  The
non-greedy `\S+?` makes the match the one at the least such position. -/
def goodAt (cs : List Char) (i : Nat) : Bool :=
  match cs.drop i with
  | '-' :: d :: _ =>
    decide (1 ≤ i) && d.isDigit && (cs.take i).all (fun c => !isSp c) &&
      (versionTail (cs.drop (i + 1))).isSome
  | _ => false

/-- The match of `R_VERSION` on `cs`: the pair (group 1, group 2) at the least
split position, if any; a string-final newline is outside group 2. -/
def rSplit (cs : List Char) : Option (List Char × List Char) :=
  match findIdxFrom (goodAt cs) 0 cs.length with
  | some i =>
    match versionTail (cs.drop (i + 1)) with
    | some v => some (cs.take i, v)
    | none => none
  | none => none

/-- The name normalisation performed by `split_name`: lower-case, then strip a
trailing `.drv`. -/
def normName (s : String) : String :=
  let t := s.data.map Char.toLower
  if endsWithL t ['.', 'd', 'r', 'v'] then ⟨t.take (t.length - 4)⟩ else ⟨t⟩

/-- `split_name` of `derivation.py`: returns the pure package name and the
version of a derivation, the version being `none` when `R_VERSION` does not
match. -/
def split_name (fullname : String) : String × Option String :=
  let t := normName fullname
  match rSplit t.data with
  | some (p, v) => (⟨p⟩, some ⟨v⟩)
  | none => (t, none)

/-- Position `i` of `cs` is a `-` immediately followed by a digit. -/
def dashDigitAt (cs : List Char) (i : Nat) : Bool :=
  match cs.drop i with
  | '-' :: d :: _ => d.isDigit
  | _ => false

/-- Follows the claim's words, not the source: lower-case the input and split
it at the first `-` that is followed by a digit, the shortest possible
leading run becoming the product name. -/
def split_name_claimed (fullname : String) : String × Option String :=
  let t : String := ⟨fullname.data.map Char.toLower⟩
  match findIdxFrom (dashDigitAt t.data) 0 t.data.length with
  | some i => (⟨t.data.take i⟩, some ⟨t.data.drop (i + 1)⟩)
  | none => (t, none)

/-! ## derivation.py: Derive -/

/-- A resolved build identity: the fields of a constructed `Derive` object
that matter to ordering and matching. -/
structure Derive : Type where
  name : String
  pname : String
  version : String
  patches : String
deriving DecidableEq

/-- The archive/patch extensions rejected by `Derive.__init__`. -/
def extensions : List String :=
  [".tar.gz", ".tar.bz2", ".tar.xz", ".zip", ".patch", ".diff"]

/-- `Derive.__init__`: `none` models raising `SkipDrv`.  The extension check
runs on the raw name, before `split_name` lower-cases it; a missing version
after `split_name` also raises `SkipDrv`. -/
def mkDerive (name patches : String) : Option Derive :=
  if extensions.any (fun e => endsWithL name.data e.data) then none
  else
    match split_name name with
    | (p, some v) => some ⟨name, p, v, patches⟩
    | (_, none) => none

/-- `Derive.__lt__`: compare product names with Python string `<`, then fall
back to `compare_versions`. -/
def deriveLt (a b : Derive) : Bool :=
  if pyLt a.pname b.pname then true
  else if pyLt b.pname a.pname then false
  else compare_versions a.version b.version = -1

/-- `Derive.__gt__`, embedded faithfully: the source returns `True` both when
`self.pname > other.pname` and when `self.pname < other.pname`. -/
def deriveGt (a b : Derive) : Bool :=
  if pyLt b.pname a.pname then true
  else if pyLt a.pname b.pname then true
  else compare_versions a.version b.version = 1

/-- Python str.replace with single-character arguments: replace every `-`
by `_`. -/
def replaceDash (s : String) : String :=
  ⟨s.data.map (fun c => if c = '-' then '_' else c)⟩

/-- `Derive.product_candidates`: the product name, then (only if different)
the name with `-` replaced by `_`. -/
def Derive.product_candidates (d : Derive) : List String :=
  let alternative := replaceDash d.pname
  if alternative ≠ d.pname then [d.pname, alternative] else [d.pname]

/-! ## derivation.py: applied_patches (the R_CVE scan) -/

/-- A match of the case-insensitive regex `CVE-\d{4}-\d+` starting at the
head of `cs`: returns the matched characters and the rest, the trailing digit
run being maximal (`\d+` is greedy). -/
def cveMatchAt (cs : List Char) : Option (List Char × List Char) :=
  match cs with
  | c1 :: c2 :: c3 :: c4 :: d1 :: d2 :: d3 :: d4 :: c5 :: e1 :: rest =>
    if c1.toLower = 'c' && c2.toLower = 'v' && c3.toLower = 'e' && c4 = '-' &&
        d1.isDigit && d2.isDigit && d3.isDigit && d4.isDigit && c5 = '-' &&
        e1.isDigit then
      let ds := rest.takeWhile Char.isDigit
      some (c1 :: c2 :: c3 :: c4 :: d1 :: d2 :: d3 :: d4 :: c5 :: e1 :: ds,
            rest.dropWhile Char.isDigit)
    else none
  | _ => none

/-- Whether a whole string is one match of the CVE pattern. -/
def isCVEFormat (s : String) : Bool :=
  match cveMatchAt s.data with
  | some (_, []) => true
  | _ => false

/-- `re.finditer` of `R_CVE`: scan left to right, taking maximal
non-overlapping matches, uppercased as in `applied_patches`.  The fuel is the
length of the remaining text. -/
def cveFindAux : Nat → List Char → List String
  | 0, _ => []
  | _, [] => []
  | fuel + 1, c :: rest =>
    match cveMatchAt (c :: rest) with
    | some (m, r) => strUpper ⟨m⟩ :: cveFindAux fuel r
    | none => cveFindAux fuel rest

/-- `Derive.applied_patches`: the CVE identifiers found in the patch text. -/
def Derive.applied_patches (d : Derive) : List String :=
  cveFindAux d.patches.data.length d.patches.data

/-! ## derivation.py: Derive.check -/

/-- `set.add`: append an element unless already present.  Lists built only
through `setAdd` model Python sets with a deterministic iteration order. -/
def setAdd (v : Vulnerability) (s : List Vulnerability) : List Vulnerability :=
  if v ∈ s then s else s ++ [v]

/-! ## nvd.py: Meta -/

/-- `Meta` of `nvd.py`: maintenance metadata.  `last_update` is a timestamp
in seconds (`datetime(1970, 1, 1)` is 0); the `etag` mapping starts empty,
which also models the initial `None`. -/
structure Meta : Type where
  pack_counter : Nat
  last_update : Int
  etag : List (String × String)
deriving DecidableEq

/-- `Meta.should_pack`: increment the counter; past 25, reset and pack.  The
counter is state, so the result is the decision paired with the new value. -/
def shouldPack (c : Nat) : Bool × Nat :=
  let c2 := c + 1
  if c2 > 25 then (true, 0) else (false, c2)

/-- The pack counter after running `n` clean sessions from counter `c`. -/
def packCounterAfter : Nat → Nat → Nat
  | c, 0 => c
  | c, n + 1 => packCounterAfter (shouldPack c).2 n

/-- Whether the `n`-th clean session (1-indexed) starting from counter `c`
triggers packing. -/
def packsOn (c : Nat) (n : Nat) : Bool :=
  (shouldPack (packCounterAfter c (n - 1))).1

/-- `Meta.headers_for`: the `If-None-Match` token sent for `url`, if any. -/
def headers_for (meta : Meta) (url : String) : Option String :=
  alookup url meta.etag

/-- `Meta.update_headers_for`: store the `ETag` response header, if present. -/
def update_headers_for (meta : Meta) (url : String) (respEtag : Option String) : Meta :=
  match respEtag with
  | some e => { meta with etag := btSet url e meta.etag }
  | none => meta

/-! ## nvd.py: Archive.download -/

/-- An HTTP response as far as `Archive.download` inspects it: the status
code, the `ETag` header, and the advisories parsed from the decompressed
body (`Archive.parse`; gzip and JSON decoding are abstracted away). -/
structure Response : Type where
  status : Nat
  etagHdr : Option String
  items : List (String × Vulnerability)
deriving DecidableEq

/-- The feed URL built by `Archive.__init__` and `download`. -/
def mkUrl (mirror name : String) : String :=
  mirror ++ "nvdcve-1.1-" ++ name ++ ".json.gz"

/-- `Archive.download`.  The network is a function from URL and optional
`If-None-Match` token to an optional response; `none` models a timeout or
connection error, which `requests.get` raises.  `raise_for_status` raises on
any status of 400 or above; both raises are `Except.error`.  Only a 200
response updates the advisories, the stored validator and `last_update`. -/
def download (fetch : String → Option String → Option Response)
    (mirror : String) (meta : Meta) (name : String) (now : Int) :
    Except Unit (List (String × Vulnerability) × Meta) :=
  let url := mkUrl mirror name
  match fetch url (headers_for meta url) with
  | none => Except.error ()
  | some r =>
    if 400 ≤ r.status then Except.error ()
    else if r.status = 200 then
      Except.ok (r.items, { update_headers_for meta url r.etagHdr with last_update := now })
    else Except.ok ([], meta)

/-! ## nvd.py: NVD store -/

/-- The persistent root of the `NVD` store: the `advisory` tree keyed by CVE
id, the `by_product` tree keyed by product name, and the `meta` singleton. -/
structure Store : Type where
  advisory : List (String × Vulnerability)
  by_product : List (String × List Vulnerability)
  meta : Meta
deriving DecidableEq

/-- `NVD.add`: upsert every advisory of an archive by its CVE id. -/
def NVD.add (st : Store) (archive : List (String × Vulnerability)) : Store :=
  { st with advisory := archive.foldl (fun adv kv => btSet kv.1 kv.2 adv) st.advisory }

/-- One step of `NVD.reindex`: `bp[prod]` gets `vuln` appended, the bucket
being created empty first when absent. -/
def bpAdd (p : String) (v : Vulnerability) (bp : List (String × List Vulnerability)) :
    List (String × List Vulnerability) :=
  btSet p ((alookup p bp).getD [] ++ [v]) bp

/-- The product index rebuilt from scratch: for every advisory, for every
node, append the advisory under the node's product. -/
def reindexBP (adv : List (String × Vulnerability)) : List (String × List Vulnerability) :=
  adv.foldl (fun bp kv => kv.2.nodes.foldl (fun bp2 n => bpAdd n.product kv.2 bp2) bp) []

/-- `NVD.reindex`: regenerate the product index. -/
def NVD.reindex (st : Store) : Store :=
  { st with by_product := reindexBP st.advisory }

/-- `NVD.by_product`: the indexed list for a product, or the empty list when
the key is absent (the `KeyError` branch). -/
def NVD.by_product (st : Store) (product : String) : List Vulnerability :=
  (alookup product st.by_product).getD []

/-- `NVD.affected`: the set of indexed vulnerabilities matching the product
and version. -/
def NVD.affected (st : Store) (pname version : String) : List Vulnerability :=
  (NVD.by_product st pname).foldl
    (fun res v => if v.vmatch pname version then setAdd v res else res) []

/-- `NVD.relevant_archives`: nothing within an hour of the last update, only
`modified` within seven days, otherwise every available year plus
`modified`. -/
def relevant_archives (now : Int) (meta : Meta) (available : List String) : List String :=
  if meta.last_update > now - 3600 then []
  else if meta.last_update > now - 604800 then ["modified"]
  else available ++ ["modified"]

/-- The loop of `NVD.update`: download and add each archive in turn — an
exception propagates and aborts the loop — then reindex once.  The returned
list records the URLs actually fetched. -/
def updateGo (fetch : String → Option String → Option Response)
    (mirror : String) (now : Int) :
    List String → Store → List String → Except Unit (Store × List String)
  | [], st, urls => Except.ok (NVD.reindex st, urls)
  | a :: rest, st, urls =>
    match download fetch mirror st.meta a now with
    | Except.error e => Except.error e
    | Except.ok (items, meta2) =>
      updateGo fetch mirror now rest { NVD.add st items with meta := meta2 }
        (urls ++ [mkUrl mirror a])

/-- The state evolution of the update loop alone: download and ingest each
archive in turn, propagating a raised exception.  `updateGo` performs exactly
this fold before its final reindex, so `segFold` names the in-transaction
store reached between two segments. -/
def segFold (fetch : String → Option String → Option Response)
    (mirror : String) (now : Int) : List String → Store → Except Unit Store
  | [], st => Except.ok st
  | a :: rest, st =>
    match download fetch mirror st.meta a now with
    | Except.error e => Except.error e
    | Except.ok (items, meta2) =>
      segFold fetch mirror now rest { NVD.add st items with meta := meta2 }

/-- `NVD.update`: download the relevant archives (if changed) and add their
CVEs to the database. -/
def NVD.update (fetch : String → Option String → Option Response)
    (mirror : String) (available : List String) (now : Int) (st : Store) :
    Except Unit (Store × List String) :=
  updateGo fetch mirror now (relevant_archives now st.meta available) st []

/-- The clean half of `NVD.__exit__`: `should_pack` advances the counter and
decides packing; `db.pack` only reclaims storage, leaving the logical
contents unchanged, so the committed store differs only in the counter. -/
def NVD.exitClean (st : Store) : Store :=
  { st with meta := { st.meta with pack_counter := (shouldPack st.meta.pack_counter).2 } }

/-- One whole sync session: `update` inside the `NVD` context.  On an
exception `__exit__` aborts the transaction, so the store reverts to its
state at entry and no URL list is reported. -/
def session (fetch : String → Option String → Option Response)
    (mirror : String) (available : List String) (now : Int) (st : Store) :
    Store × List String :=
  match NVD.update fetch mirror available now st with
  | Except.ok (st2, urls) => (NVD.exitClean st2, urls)
  | Except.error _ => (st, [])

/-! ## derivation.py: Derive.check -/

/-- The remediated-filtered matches one candidate contributes, starting from
an empty set. -/
def unrem (patched : List String) (version : String) (st : Store) (p : String) :
    List Vulnerability :=
  (NVD.affected st p version).foldl
    (fun a v => if v.cve_id ∈ patched then a else setAdd v a) []

/-- The candidate loop of `Derive.check`: add the unremediated matches of
each candidate to the accumulator and return as soon as it is non-empty. -/
def checkGo (patched : List String) (version : String) (st : Store) :
    List String → List Vulnerability → List Vulnerability
  | [], acc => acc
  | pname :: rest, acc =>
    let acc2 := (NVD.affected st pname version).foldl
      (fun a v => if v.cve_id ∈ patched then a else setAdd v a) acc
    if acc2.isEmpty then checkGo patched version st rest acc2 else acc2

/-- `Derive.check`: the set of vulnerabilities affecting this derivation. -/
def Derive.check (d : Derive) (st : Store) : List Vulnerability :=
  checkGo d.applied_patches d.version st d.product_candidates []

/-! ## Declarative companions used to state properties -/

/-- A valid decomposition of a name in the sense of `R_VERSION`: a non-empty
whitespace-free prefix, a dash, then a whitespace-free version starting with
a digit — followed by at most one string-final newline, which Python's `$`
anchor tolerates but leaves outside the version group. -/
def ValidSplit (cs p v : List Char) : Prop :=
  (cs = p ++ '-' :: v ∨ cs = p ++ '-' :: (v ++ ['\n'])) ∧ p ≠ [] ∧
    p.all (fun c => !isSp c) = true ∧
    (∃ d t, v = d :: t ∧ d.isDigit = true) ∧ v.all (fun c => !isSp c) = true

/-- Ingesting the same CVE id twice in a row (two one-advisory archives) and
rebuilding the index, as `NVD.update` would. -/
def ingestTwice (st : Store) (id : String) (v1 v2 : Vulnerability) : Store :=
  NVD.reindex (NVD.add (NVD.add st [(id, v1)]) [(id, v2)])

/-! ## Concrete scenario data used by counterexamples and witnesses -/

/-- A store with no advisories and pristine metadata. -/
def emptyStore : Store := ⟨[], [], ⟨0, 0, []⟩⟩

def vulnC1 : Vulnerability := ⟨"CVE-2021-1234", [⟨"foo", VPred.exactV "1"⟩]⟩

def storeC1 : Store := ⟨[("CVE-2021-1234", vulnC1)], [("foo", [vulnC1])], ⟨0, 0, []⟩⟩

def drvC1 : Derive := ⟨"foo-1", "foo", "1", "CVE-2021-12345"⟩

def drvC1w : Derive := ⟨"foo-1", "foo", "1", "fix-CVE-2021-1234.patch"⟩

def vulnC2 : Vulnerability := ⟨"CVE-2020-0002", [⟨"foo_bar", VPred.exactV "1"⟩]⟩

def storeC2 : Store := ⟨[("CVE-2020-0002", vulnC2)], [("foo_bar", [vulnC2])], ⟨0, 0, []⟩⟩

def drvC2 : Derive := ⟨"foo-bar-1", "foo-bar", "1", ""⟩

def vulnC8a : Vulnerability := ⟨"CVE-2020-0001", [⟨"p", VPred.exactV "1"⟩]⟩

def vulnC8b : Vulnerability :=
  ⟨"CVE-2020-0001", [⟨"p", VPred.exactV "1"⟩, ⟨"p", VPred.exactV "2"⟩]⟩

def vulnC10 : Vulnerability :=
  ⟨"CVE-2020-0042", [⟨"p", VPred.exactV "1"⟩, ⟨"p", VPred.rangeV none false none false⟩]⟩

/-- A store whose product index legitimately holds the same record twice for
product `p` (the record lists `p` in two nodes), as `reindex` produces. -/
def storeC10 : Store :=
  ⟨[("CVE-2020-0042", vulnC10)], [("p", [vulnC10, vulnC10])], ⟨0, 0, []⟩⟩

def vulnC6 : Vulnerability := ⟨"CVE-2020-0007", [⟨"bar", VPred.exactV "2"⟩]⟩

/-- A network where the 2019 segment times out and every other URL serves
fresh content. -/
def fetchC6 : String → Option String → Option Response := fun url _ =>
  if url = mkUrl "m/" "2019" then none
  else some ⟨200, none, [("CVE-2020-0007", vulnC6)]⟩

/-- A network that always answers 304 Not Modified. -/
def fetch304 : String → Option String → Option Response := fun _ _ =>
  some ⟨304, none, []⟩

/-- A network that always answers 200 with an empty feed. -/
def fetch200 : String → Option String → Option Response := fun _ _ =>
  some ⟨200, none, []⟩

/-- A network where the 2020 segment times out and every other URL serves a
fresh advisory. -/
def fetchC6b : String → Option String → Option Response := fun url _ =>
  if url = mkUrl "m/" "2020" then none
  else some ⟨200, none, [("CVE-2020-0007", vulnC6)]⟩

/-- The in-transaction store after the 2019 segment of `fetchC6b` has been
downloaded and ingested at time 700000, before any later segment. -/
def storeC6mid : Store := ⟨[("CVE-2020-0007", vulnC6)], [], ⟨0, 700000, []⟩⟩

/-- The committed store after a successful empty 200 sync at time 700000. -/
def storeC7w : Store := ⟨[], [], ⟨0, 700000, []⟩⟩

/-! ## Lemmas about association lists and sorted insertion -/

theorem strDataInj {a b : String} (h : a.data = b.data) : a = b := by
  cases a
  cases b
  exact congrArg String.mk h

theorem pyLt_irrefl (a : String) : ¬ pyLt a a := lt_irrefl _

theorem pyLt_trans {a b c : String} (h1 : pyLt a b) (h2 : pyLt b c) : pyLt a c :=
  lt_trans h1 h2

theorem pyLt_ne {a b : String} (h : pyLt a b) : a ≠ b :=
  fun hh => absurd (hh ▸ h) (pyLt_irrefl b)

theorem pyLt_total {a b : String} (h1 : ¬ pyLt a b) (h2 : ¬ a = b) : pyLt b a := by
  rcases lt_trichotomy a.data b.data with hh | hh | hh
  · exact absurd hh h1
  · exact absurd (strDataInj hh) h2
  · exact hh

theorem alookup_btSet_self {β : Type} (k : String) (v : β) (m : List (String × β)) :
    alookup k (btSet k v m) = some v := by
  induction m with
  | nil => simp [btSet, alookup]
  | cons kv rest ih =>
    obtain ⟨k', v'⟩ := kv
    unfold btSet
    by_cases h1 : pyLt k k'
    · rw [if_pos h1]; simp [alookup]
    · rw [if_neg h1]
      by_cases h2 : k = k'
      · rw [if_pos h2]; simp [alookup]
      · rw [if_neg h2]; simpa [alookup, h2] using ih

theorem alookup_btSet_ne {β : Type} {q k : String} (h : q ≠ k) (v : β)
    (m : List (String × β)) : alookup q (btSet k v m) = alookup q m := by
  induction m with
  | nil => simp [btSet, alookup, h]
  | cons kv rest ih =>
    obtain ⟨k', v'⟩ := kv
    unfold btSet
    by_cases h1 : pyLt k k'
    · rw [if_pos h1]; simp [alookup, h]
    · rw [if_neg h1]
      by_cases h2 : k = k'
      · subst h2; rw [if_pos rfl]; simp [alookup, h]
      · rw [if_neg h2]
        by_cases h3 : q = k'
        · simp [alookup, h3]
        · simpa [alookup, h3] using ih

theorem mem_btSet {β : Type} {y : String × β} {k : String} {v : β}
    {m : List (String × β)} (h : y ∈ btSet k v m) : y = (k, v) ∨ y ∈ m := by
  induction m with
  | nil => simpa [btSet] using h
  | cons kv rest ih =>
    obtain ⟨k', v'⟩ := kv
    unfold btSet at h
    by_cases h1 : pyLt k k'
    · rw [if_pos h1] at h
      simpa using h
    · rw [if_neg h1] at h
      by_cases h2 : k = k'
      · rw [if_pos h2] at h
        rcases List.mem_cons.1 h with rfl | h3
        · exact Or.inl rfl
        · exact Or.inr (List.mem_cons_of_mem _ h3)
      · rw [if_neg h2] at h
        rcases List.mem_cons.1 h with rfl | h3
        · exact Or.inr (List.mem_cons_self _ _)
        · rcases ih h3 with h4 | h4
          · exact Or.inl h4
          · exact Or.inr (List.mem_cons_of_mem _ h4)

theorem btSet_pairwise {β : Type} {k : String} {v : β} {m : List (String × β)}
    (h : m.Pairwise (fun a b => pyLt a.1 b.1)) :
    (btSet k v m).Pairwise (fun a b => pyLt a.1 b.1) := by
  induction m with
  | nil => simp [btSet]
  | cons kv rest ih =>
    obtain ⟨k', v'⟩ := kv
    rw [List.pairwise_cons] at h
    obtain ⟨hk', hrest⟩ := h
    unfold btSet
    by_cases h1 : pyLt k k'
    · rw [if_pos h1]
      rw [List.pairwise_cons]
      refine ⟨?_, by rw [List.pairwise_cons]; exact ⟨hk', hrest⟩⟩
      intro y hy
      rcases List.mem_cons.1 hy with rfl | hy2
      · exact h1
      · exact pyLt_trans h1 (hk' y hy2)
    · rw [if_neg h1]
      by_cases h2 : k = k'
      · rw [if_pos h2]
        subst h2
        rw [List.pairwise_cons]
        exact ⟨hk', hrest⟩
      · rw [if_neg h2]
        have h3 : pyLt k' k := pyLt_total h1 h2
        rw [List.pairwise_cons]
        refine ⟨?_, ih hrest⟩
        intro y hy
        rcases mem_btSet hy with rfl | hy2
        · exact h3
        · exact hk' y hy2

theorem filter_keys_ne {β : Type} {k : String} {m : List (String × β)}
    (h : ∀ y ∈ m, y.1 ≠ k) : m.filter (fun kv => kv.1 == k) = [] := by
  induction m with
  | nil => rfl
  | cons kv rest ih =>
    obtain ⟨k', v'⟩ := kv
    have hk' : k' ≠ k := h (k', v') (List.mem_cons_self _ _)
    rw [List.filter_cons]
    rw [if_neg (by simpa using hk')]
    exact ih (fun y hy => h y (List.mem_cons_of_mem _ hy))

theorem filter_btSet_self {β : Type} {k : String} {v : β} {m : List (String × β)}
    (h : m.Pairwise (fun a b => pyLt a.1 b.1)) :
    (btSet k v m).filter (fun kv => kv.1 == k) = [(k, v)] := by
  induction m with
  | nil => simp [btSet]
  | cons kv rest ih =>
    obtain ⟨k', v'⟩ := kv
    rw [List.pairwise_cons] at h
    obtain ⟨hk', hrest⟩ := h
    unfold btSet
    by_cases h1 : pyLt k k'
    · rw [if_pos h1]
      rw [List.filter_cons, if_pos (by simp), List.filter_cons,
        if_neg (by simpa using (pyLt_ne h1).symm)]
      rw [filter_keys_ne (fun y hy => (pyLt_ne (pyLt_trans h1 (hk' y hy))).symm)]
    · rw [if_neg h1]
      by_cases h2 : k = k'
      · rw [if_pos h2]
        subst h2
        rw [List.filter_cons, if_pos (by simp)]
        rw [filter_keys_ne (fun y hy => (pyLt_ne (hk' y hy)).symm)]
      · rw [if_neg h2]
        rw [List.filter_cons, if_neg (by simpa using fun hh => h2 hh.symm)]
        exact ih hrest

/-! ## Lemmas about the product index rebuild -/

theorem mem_bpAdd {p q : String} {v w : Vulnerability}
    {bp : List (String × List Vulnerability)} :
    w ∈ (alookup q (bpAdd p v bp)).getD [] ↔
      w ∈ (alookup q bp).getD [] ∨ (q = p ∧ w = v) := by
  unfold bpAdd
  by_cases hq : q = p
  · subst hq
    rw [alookup_btSet_self]
    simp
  · rw [alookup_btSet_ne hq]
    simp [hq]

theorem mem_nodesFold {v w : Vulnerability} (nodes : List VNode) {q : String}
    (bp : List (String × List Vulnerability)) :
    w ∈ (alookup q (nodes.foldl (fun b n => bpAdd n.product v b) bp)).getD [] ↔
      w ∈ (alookup q bp).getD [] ∨ (w = v ∧ q ∈ nodes.map VNode.product) := by
  induction nodes generalizing bp with
  | nil => simp
  | cons n t ih =>
    simp only [List.foldl_cons]
    rw [ih]
    rw [mem_bpAdd]
    constructor
    · rintro ((hw | ⟨rfl, rfl⟩) | ⟨rfl, hq⟩)
      · exact Or.inl hw
      · exact Or.inr ⟨rfl, by simp⟩
      · exact Or.inr ⟨rfl, by simp [hq]⟩
    · rintro (hw | ⟨rfl, hq⟩)
      · exact Or.inl (Or.inl hw)
      · simp only [List.map_cons, List.mem_cons] at hq
        rcases hq with hq1 | hq2
        · exact Or.inl (Or.inr ⟨hq1, rfl⟩)
        · exact Or.inr ⟨rfl, hq2⟩

theorem mem_reindexAux {w : Vulnerability} {q : String}
    (adv : List (String × Vulnerability)) (bp : List (String × List Vulnerability)) :
    w ∈ (alookup q (adv.foldl
        (fun b kv => kv.2.nodes.foldl (fun b2 n => bpAdd n.product kv.2 b2) b) bp)).getD [] ↔
      w ∈ (alookup q bp).getD [] ∨
        ∃ k, (k, w) ∈ adv ∧ q ∈ w.nodes.map VNode.product := by
  induction adv generalizing bp with
  | nil => simp
  | cons kv t ih =>
    obtain ⟨k0, v0⟩ := kv
    simp only [List.foldl_cons]
    rw [ih]
    rw [mem_nodesFold]
    constructor
    · rintro ((hw | ⟨rfl, hq⟩) | ⟨k, hk, hq⟩)
      · exact Or.inl hw
      · exact Or.inr ⟨k0, by simp, hq⟩
      · exact Or.inr ⟨k, by simp [hk], hq⟩
    · rintro (hw | ⟨k, hk, hq⟩)
      · exact Or.inl (Or.inl hw)
      · rcases List.mem_cons.1 hk with hk1 | hk2
        · have hw0 : w = v0 := congrArg Prod.snd hk1
          subst hw0
          exact Or.inl (Or.inr ⟨rfl, hq⟩)
        · exact Or.inr ⟨k, hk2, hq⟩

theorem mem_by_product_reindex {w : Vulnerability} {q : String} (st : Store) :
    w ∈ NVD.by_product (NVD.reindex st) q ↔
      ∃ k, (k, w) ∈ st.advisory ∧ q ∈ w.nodes.map VNode.product := by
  have h := @mem_reindexAux w q st.advisory []
  simpa [NVD.by_product, NVD.reindex, reindexBP, alookup] using h

/-! ## Lemmas about set-like accumulation -/

theorem mem_setAdd {u v : Vulnerability} {s : List Vulnerability} :
    v ∈ setAdd u s ↔ v ∈ s ∨ v = u := by
  unfold setAdd
  by_cases h : u ∈ s
  · rw [if_pos h]
    constructor
    · exact Or.inl
    · rintro (hv | rfl)
      · exact hv
      · exact h
  · rw [if_neg h]
    simp

theorem setAdd_nodup {u : Vulnerability} {s : List Vulnerability} (h : s.Nodup) :
    (setAdd u s).Nodup := by
  unfold setAdd
  by_cases hu : u ∈ s
  · rwa [if_pos hu]
  · rw [if_neg hu]
    simpa [List.nodup_append] using ⟨h, hu⟩

theorem mem_foldl_matchAdd {pn ver : String} :
    ∀ (l acc : List Vulnerability) (v : Vulnerability),
      v ∈ l.foldl (fun res u => if u.vmatch pn ver then setAdd u res else res) acc ↔
        v ∈ acc ∨ (v ∈ l ∧ v.vmatch pn ver = true) := by
  intro l
  induction l with
  | nil => simp
  | cons u t ih =>
    intro acc v
    rw [List.foldl_cons]
    by_cases hu : u.vmatch pn ver
    · rw [if_pos hu, ih, mem_setAdd]
      constructor
      · rintro ((hv | rfl) | ⟨hv, hm⟩)
        · exact Or.inl hv
        · exact Or.inr ⟨List.mem_cons_self _ _, hu⟩
        · exact Or.inr ⟨List.mem_cons_of_mem _ hv, hm⟩
      · rintro (hv | ⟨hv, hm⟩)
        · exact Or.inl (Or.inl hv)
        · rcases List.mem_cons.1 hv with rfl | hv2
          · exact Or.inl (Or.inr rfl)
          · exact Or.inr ⟨hv2, hm⟩
    · rw [if_neg hu, ih]
      constructor
      · rintro (hv | ⟨hv, hm⟩)
        · exact Or.inl hv
        · exact Or.inr ⟨List.mem_cons_of_mem _ hv, hm⟩
      · rintro (hv | ⟨hv, hm⟩)
        · exact Or.inl hv
        · rcases List.mem_cons.1 hv with rfl | hv2
          · exact absurd hm (by simpa using hu)
          · exact Or.inr ⟨hv2, hm⟩

theorem nodup_foldl_matchAdd {pn ver : String} :
    ∀ (l acc : List Vulnerability), acc.Nodup →
      (l.foldl (fun res u => if u.vmatch pn ver then setAdd u res else res) acc).Nodup := by
  intro l
  induction l with
  | nil => exact fun acc h => h
  | cons u t ih =>
    intro acc h
    rw [List.foldl_cons]
    by_cases hu : u.vmatch pn ver
    · rw [if_pos hu]
      exact ih _ (setAdd_nodup h)
    · rw [if_neg hu]
      exact ih _ h

theorem mem_foldl_patchAdd {patched : List String} :
    ∀ (l acc : List Vulnerability) (v : Vulnerability),
      v ∈ l.foldl (fun a u => if u.cve_id ∈ patched then a else setAdd u a) acc ↔
        v ∈ acc ∨ (v ∈ l ∧ v.cve_id ∉ patched) := by
  intro l
  induction l with
  | nil => simp
  | cons u t ih =>
    intro acc v
    rw [List.foldl_cons]
    by_cases hu : u.cve_id ∈ patched
    · rw [if_pos hu, ih]
      constructor
      · rintro (hv | ⟨hv, hm⟩)
        · exact Or.inl hv
        · exact Or.inr ⟨List.mem_cons_of_mem _ hv, hm⟩
      · rintro (hv | ⟨hv, hm⟩)
        · exact Or.inl hv
        · rcases List.mem_cons.1 hv with rfl | hv2
          · exact absurd hu hm
          · exact Or.inr ⟨hv2, hm⟩
    · rw [if_neg hu, ih, mem_setAdd]
      constructor
      · rintro ((hv | rfl) | ⟨hv, hm⟩)
        · exact Or.inl hv
        · exact Or.inr ⟨List.mem_cons_self _ _, hu⟩
        · exact Or.inr ⟨List.mem_cons_of_mem _ hv, hm⟩
      · rintro (hv | ⟨hv, hm⟩)
        · exact Or.inl (Or.inl hv)
        · rcases List.mem_cons.1 hv with rfl | hv2
          · exact Or.inl (Or.inr rfl)
          · exact Or.inr ⟨hv2, hm⟩

/-! ## Lemmas about the candidate loop of check -/

theorem mem_checkGo_patched {patched : List String} {ver : String} {st : Store} :
    ∀ (cands : List String) (acc : List Vulnerability) (v : Vulnerability),
      v ∈ checkGo patched ver st cands acc → v ∈ acc ∨ v.cve_id ∉ patched := by
  intro cands
  induction cands with
  | nil => exact fun acc v h => Or.inl h
  | cons c t ih =>
    intro acc v h
    have hA : ∀ w, w ∈ (NVD.affected st c ver).foldl
        (fun a u => if u.cve_id ∈ patched then a else setAdd u a) acc →
        w ∈ acc ∨ w.cve_id ∉ patched := by
      intro w hw
      rcases (mem_foldl_patchAdd _ _ _).1 hw with hw1 | ⟨_, hw2⟩
      · exact Or.inl hw1
      · exact Or.inr hw2
    simp only [checkGo] at h
    split at h
    · rcases ih _ _ h with h1 | h1
      · exact hA _ h1
      · exact Or.inr h1
    · exact hA _ h

theorem checkGo_spec (patched : List String) (ver : String) (st : Store) :
    ∀ cands : List String, checkGo patched ver st cands [] =
      match cands.find? (fun c => !(unrem patched ver st c).isEmpty) with
      | some c => unrem patched ver st c
      | none => [] := by
  intro cands
  induction cands with
  | nil => rfl
  | cons c t ih =>
    change (if (unrem patched ver st c).isEmpty then
        checkGo patched ver st t (unrem patched ver st c)
      else unrem patched ver st c) = _
    by_cases h : (unrem patched ver st c).isEmpty
    · rw [if_pos h]
      have hnil : unrem patched ver st c = [] := by
        simpa using h
      rw [hnil, ih, List.find?_cons_of_neg _ (by simp [h])]
    · rw [if_neg h]
      rw [List.find?_cons_of_pos _ (by simpa using h)]

/-! ## Claim C1 -/

/-- Claim C1 (counterexample): the patch text `CVE-2021-12345` contains the
substring `CVE-2021-1234`, which matches the CVE pattern case-insensitively
and uppercases to the vulnerability's id, yet `check` still reports that
vulnerability: the remediation scan keeps only maximal non-overlapping
matches, so the shorter identifier is never extracted. -/
theorem check_substring_counterexample :
    isCVEFormat "CVE-2021-1234" = true ∧
    "CVE-2021-12345".data = "CVE-2021-1234".data ++ ['5'] ∧
    strUpper "CVE-2021-1234" = vulnC1.cve_id ∧
    drvC1.patches = "CVE-2021-12345" ∧
    vulnC1 ∈ Derive.check drvC1 storeC1 := by
  refine ⟨by decide, by decide, by decide, rfl, by decide⟩

/-- Claim C1 (amended): a vulnerability whose id is in the remediated set
computed by `applied_patches` (the uppercased maximal non-overlapping
matches of the CVE pattern in the patch text) is never reported by `check`,
whatever the store contents. -/
theorem check_excludes_patched (d : Derive) (st : Store) (v : Vulnerability)
    (h : v.cve_id ∈ d.applied_patches) : v ∉ Derive.check d st := by
  intro hmem
  rcases mem_checkGo_patched d.product_candidates [] v hmem with h1 | h1
  · exact absurd h1 (List.not_mem_nil v)
  · exact h1 h

/-- Claim C1 (witness): the amended theorem applied to a derivation whose
patch text names exactly the vulnerability's id. -/
theorem check_excludes_patched_witness : vulnC1 ∉ Derive.check drvC1w storeC1 :=
  check_excludes_patched drvC1w storeC1 vulnC1 (by decide)

/-! ## Claim C2 -/

/-- Claim C2: `check` tries the product candidates in order and returns the
unremediated matches of the first candidate contributing at least one match,
never merging candidates; with no such candidate it returns the empty set. -/
theorem check_first_candidate (d : Derive) (st : Store) :
    Derive.check d st =
      match d.product_candidates.find?
          (fun c => !(unrem d.applied_patches d.version st c).isEmpty) with
      | some c => unrem d.applied_patches d.version st c
      | none => [] :=
  checkGo_spec _ _ _ _

/-- Claim C2 (witness): `foo-bar` yields no match, so the `foo_bar` spelling
is consulted and its match returned. -/
theorem check_first_candidate_witness : Derive.check drvC2 storeC2 = [vulnC2] :=
  (check_first_candidate drvC2 storeC2).trans (by decide)

/-! ## Lemmas about the version split -/

theorem strEta (s : String) : (⟨s.data⟩ : String) = s := by
  cases s
  rfl

theorem drop_len_append (p v : List Char) (c : Char) :
    (p ++ c :: v).drop (p.length + 1) = v := by
  have h : p ++ c :: v = (p ++ [c]) ++ v := by simp
  have h2 : p.length + 1 = (p ++ [c]).length := by simp
  rw [h, h2, List.drop_left]

theorem findIdxFrom_some (p : Nat → Bool) :
    ∀ (fuel i j : Nat), findIdxFrom p i fuel = some j →
      p j = true ∧ i ≤ j ∧ j < i + fuel ∧ ∀ k, i ≤ k → k < j → p k = false := by
  intro fuel
  induction fuel with
  | zero => exact fun i j h => absurd h (by simp [findIdxFrom])
  | succ n ih =>
    intro i j h
    unfold findIdxFrom at h
    by_cases hp : p i
    · rw [if_pos hp] at h
      injection h with h
      subst h
      exact ⟨hp, le_refl i, by omega, fun k hk1 hk2 => absurd hk2 (by omega)⟩
    · rw [if_neg hp] at h
      obtain ⟨h1, h2, h3, h4⟩ := ih (i + 1) j h
      refine ⟨h1, by omega, by omega, ?_⟩
      intro k hk1 hk2
      by_cases hk : k = i
      · subst hk
        simpa using hp
      · exact h4 k (by omega) hk2

theorem findIdxFrom_none (p : Nat → Bool) :
    ∀ (fuel i : Nat), findIdxFrom p i fuel = none →
      ∀ k, i ≤ k → k < i + fuel → p k = false := by
  intro fuel
  induction fuel with
  | zero => exact fun i _ k hk1 hk2 => absurd hk2 (by omega)
  | succ n ih =>
    intro i h k hk1 hk2
    unfold findIdxFrom at h
    by_cases hp : p i
    · rw [if_pos hp] at h
      cases h
    · rw [if_neg hp] at h
      by_cases hk : k = i
      · subst hk
        simpa using hp
      · exact ih (i + 1) h k (by omega) (by omega)

theorem goodAt_lt_length {cs : List Char} {i : Nat} (h : goodAt cs i = true) :
    i < cs.length := by
  unfold goodAt at h
  split at h
  · next heq =>
    by_contra hlt
    push_neg at hlt
    rw [List.drop_eq_nil_of_le hlt] at heq
    cases heq
  · cases h

theorem versionTail_some_iff (r v : List Char) :
    versionTail r = some v ↔
      ((r = v ∧ v.all (fun c => !isSp c) = true) ∨
        (r = v ++ ['\n'] ∧ v.all (fun c => !isSp c) = true)) := by
  unfold versionTail
  by_cases h1 : r.all (fun c => !isSp c)
  · rw [if_pos h1]
    constructor
    · intro h
      injection h with h
      subst h
      exact Or.inl ⟨rfl, h1⟩
    · rintro (⟨rfl, _⟩ | ⟨rfl, _⟩)
      · rfl
      · exfalso
        have h3 : (!isSp '\n') = true := (List.all_eq_true.1 h1) '\n' (by simp)
        exact absurd h3 (by decide)
  · rw [if_neg h1]
    by_cases h2 : r.getLast? = some '\n' ∧ r.dropLast.all (fun c => !isSp c) = true
    · rw [if_pos h2]
      obtain ⟨hL, hD⟩ := h2
      constructor
      · intro h
        injection h with h
        subst h
        right
        refine ⟨?_, hD⟩
        have hne : r ≠ [] := by
          intro hh
          rw [hh] at hL
          cases hL
        have hlast : r.getLast hne = '\n' := by
          have := List.getLast?_eq_getLast r hne
          rw [this] at hL
          injection hL
        conv_lhs => rw [← List.dropLast_append_getLast hne]
        rw [hlast]
      · rintro (⟨rfl, hv⟩ | ⟨rfl, _⟩)
        · exact absurd hv h1
        · rw [List.dropLast_concat]
    · rw [if_neg h2]
      constructor
      · intro h
        cases h
      · rintro (⟨rfl, hv⟩ | ⟨rfl, hv⟩)
        · exact absurd hv h1
        · exfalso
          apply h2
          constructor
          · rw [List.getLast?_concat]
          · rw [List.dropLast_concat]
            exact hv

theorem goodAt_version {cs : List Char} {i : Nat} (h : goodAt cs i = true) :
    ∃ v, versionTail (cs.drop (i + 1)) = some v ∧ ValidSplit cs (cs.take i) v := by
  have hlen : i < cs.length := goodAt_lt_length h
  unfold goodAt at h
  split at h
  case h_2 => cases h
  case h_1 d tail heq =>
    simp only [Bool.and_eq_true, decide_eq_true_eq, Option.isSome_iff_exists] at h
    obtain ⟨⟨⟨h1, hd⟩, hp⟩, v, hv⟩ := h
    have hdrop : cs.drop (i + 1) = d :: tail := by
      have hstep : cs.drop (i + 1) = (cs.drop i).drop 1 := by
        rw [List.drop_drop, Nat.add_comm]
      rw [hstep, heq]
      rfl
    have hne : cs.take i ≠ [] := by
      intro hnil
      have hl0 : (cs.take i).length = 0 := by rw [hnil]; rfl
      rw [List.length_take] at hl0
      omega
    have hwhole : cs = cs.take i ++ '-' :: (d :: tail) := by
      conv_lhs => rw [← List.take_append_drop i cs]
      rw [heq]
    rcases (versionTail_some_iff _ _).1 hv with ⟨hrv, hvall⟩ | ⟨hrv, hvall⟩
    · have hveq : v = d :: tail := by rw [← hrv, hdrop]
      refine ⟨v, hv, Or.inl ?_, hne, hp, ⟨d, tail, hveq, hd⟩, hvall⟩
      rw [hveq]
      exact hwhole
    · have hveq : v ++ ['\n'] = d :: tail := by rw [← hrv, hdrop]
      have hvshape : ∃ t2, v = d :: t2 := by
        cases v with
        | nil =>
          exfalso
          injection hveq with hh
          rw [← hh] at hd
          exact absurd hd (by decide)
        | cons a as =>
          injection hveq with hh _
          exact ⟨as, by rw [hh]⟩
      obtain ⟨t2, hvt2⟩ := hvshape
      refine ⟨v, hv, Or.inr ?_, hne, hp, ⟨d, t2, hvt2, hd⟩, hvall⟩
      rw [hveq]
      exact hwhole

theorem valid_goodAt {cs p v : List Char} (h : ValidSplit cs p v) :
    goodAt cs p.length = true ∧ versionTail (cs.drop (p.length + 1)) = some v := by
  obtain ⟨hdec, hne, hps, ⟨d, t, hv, hd⟩, hvs⟩ := h
  subst hv
  have hlp : 1 ≤ p.length := by
    have := List.length_pos.2 hne
    omega
  rcases hdec with hcs | hcs
  · have hdrop : cs.drop p.length = '-' :: d :: t := by
      rw [hcs]
      exact List.drop_left _ _
    have htake : cs.take p.length = p := by
      rw [hcs]
      exact List.take_left _ _
    have hdrop2 : cs.drop (p.length + 1) = d :: t := by
      rw [hcs]
      exact drop_len_append _ _ _
    have hvt : versionTail (cs.drop (p.length + 1)) = some (d :: t) := by
      rw [hdrop2]
      exact (versionTail_some_iff _ _).2 (Or.inl ⟨rfl, hvs⟩)
    refine ⟨?_, hvt⟩
    unfold goodAt
    rw [hdrop]
    simp only [Bool.and_eq_true, decide_eq_true_eq]
    refine ⟨⟨⟨hlp, hd⟩, by rw [htake]; exact hps⟩, by rw [hvt]; rfl⟩
  · simp only [List.cons_append] at hcs
    have hdrop : cs.drop p.length = '-' :: d :: (t ++ ['\n']) := by
      rw [hcs]
      exact List.drop_left _ _
    have htake : cs.take p.length = p := by
      rw [hcs]
      exact List.take_left _ _
    have hdrop2 : cs.drop (p.length + 1) = d :: (t ++ ['\n']) := by
      rw [hcs]
      exact drop_len_append _ _ _
    have hvt : versionTail (cs.drop (p.length + 1)) = some (d :: t) := by
      rw [hdrop2]
      exact (versionTail_some_iff _ _).2 (Or.inr ⟨rfl, hvs⟩)
    refine ⟨?_, hvt⟩
    unfold goodAt
    rw [hdrop]
    simp only [Bool.and_eq_true, decide_eq_true_eq]
    refine ⟨⟨⟨hlp, hd⟩, by rw [htake]; exact hps⟩, by rw [hvt]; rfl⟩

theorem rSplit_some_iff (cs p v : List Char) :
    rSplit cs = some (p, v) ↔
      ValidSplit cs p v ∧ ∀ p2 v2, ValidSplit cs p2 v2 → p.length ≤ p2.length := by
  constructor
  · intro h
    unfold rSplit at h
    cases hf : findIdxFrom (goodAt cs) 0 cs.length with
    | none => rw [hf] at h; cases h
    | some i =>
      rw [hf] at h
      obtain ⟨hg, _, _, hmin⟩ := findIdxFrom_some _ _ _ _ hf
      obtain ⟨v0, hv0, hval0⟩ := goodAt_version hg
      have h3 : (match versionTail (cs.drop (i + 1)) with
          | some v1 => some (cs.take i, v1)
          | none => none) = some (p, v) := h
      rw [hv0] at h3
      injection h3 with h3
      injection h3 with h1 h2
      subst h2
      subst h1
      have hil : i < cs.length := goodAt_lt_length hg
      refine ⟨hval0, ?_⟩
      intro p2 v2 h2v
      have hg2 := (valid_goodAt h2v).1
      by_contra hcon
      push_neg at hcon
      rw [List.length_take] at hcon
      have hz := hmin p2.length (Nat.zero_le _) (by omega)
      rw [hz] at hg2
      cases hg2
  · rintro ⟨hval, hmin⟩
    obtain ⟨hg, hvt⟩ := valid_goodAt hval
    have hlen : p.length < cs.length := by
      rcases hval.1 with hcs | hcs
      · rw [hcs, List.length_append]
        simp
      · rw [hcs, List.length_append]
        simp
    unfold rSplit
    cases hf : findIdxFrom (goodAt cs) 0 cs.length with
    | none =>
      have hz := findIdxFrom_none _ _ _ hf p.length (Nat.zero_le _) (by omega)
      rw [hz] at hg
      cases hg
    | some i =>
      obtain ⟨hgi, _, _, hmini⟩ := findIdxFrom_some _ _ _ _ hf
      obtain ⟨vi, hvi, hvali⟩ := goodAt_version hgi
      have hii : i < cs.length := goodAt_lt_length hgi
      have h1 : p.length ≤ (cs.take i).length := hmin _ _ hvali
      rw [List.length_take] at h1
      have h2 : ¬ p.length < i := by
        intro hh
        have hz := hmini p.length (Nat.zero_le _) hh
        rw [hz] at hg
        cases hg
      have hie : i = p.length := by omega
      subst hie
      have htake : cs.take p.length = p := by
        rcases hval.1 with hcs | hcs
        · rw [hcs]
          exact List.take_left _ _
        · rw [hcs]
          exact List.take_left _ _
      show (match versionTail (cs.drop (p.length + 1)) with
        | some v1 => some (cs.take p.length, v1)
        | none => none) = some (p, v)
      rw [hvt]
      show some (cs.take p.length, v) = some (p, v)
      rw [htake]

theorem split_name_none_of_no_valid (s : String)
    (h : ¬ ∃ p v, ValidSplit (normName s).data p v) : (split_name s).2 = none := by
  cases hs : rSplit (normName s).data with
  | none => simp [split_name, hs]
  | some pv =>
    exfalso
    obtain ⟨p0, v0⟩ := pv
    exact h ⟨p0, v0, ((rSplit_some_iff _ _ _).1 hs).1⟩

theorem mkDerive_skip_no_version (s patches : String)
    (h : (split_name s).2 = none) : mkDerive s patches = none := by
  unfold mkDerive
  by_cases he : extensions.any (fun e => endsWithL s.data e.data)
  · rw [if_pos he]
  · rw [if_neg he]
    cases hs : split_name s with
    | mk p ov =>
      rw [hs] at h
      cases ov with
      | some v => cases h
      | none => rfl

/-! ## Claim C3 -/

/-- Claim C3 (counterexample): the claim splits at the first `-` followed by
a digit, but the regex also demands whitespace-free context; on `a-1 b` the
claimed rule yields `("a", "1 b")` while the code finds no version at all
and the resolver skips the descriptor. -/
theorem split_name_whitespace_counterexample :
    split_name "a-1 b" = ("a-1 b", none) ∧
    split_name_claimed "a-1 b" = ("a", some "1 b") ∧
    mkDerive "a-1 b" "" = none := by
  exact ⟨by decide, by decide, by decide⟩

/-- Claim C3 (amended): `split_name` lower-cases its input (stripping a
trailing `.drv`), then splits at the first `-` that has at least one
character before it and a digit after it, where the leading run holds no
whitespace and the rest holds no whitespace except for an optional single
string-final newline, which stays outside the version; the product name is
the shortest such leading run.  The stated examples hold, and every input
admitting no such split is resolved with an absent version and skipped. -/
theorem split_name_characterization :
    split_name "foo-1.2.3" = ("foo", some "1.2.3") ∧
    split_name "Foo-1.0" = ("foo", some "1.0") ∧
    split_name "nameonly" = ("nameonly", none) ∧
    split_name "foo-1\n" = ("foo", some "1") ∧
    (∀ s p v : String, split_name s = (p, some v) ↔
      ValidSplit (normName s).data p.data v.data ∧
        ∀ p2 v2, ValidSplit (normName s).data p2 v2 → p.data.length ≤ p2.length) ∧
    (∀ s patches : String, (split_name s).2 = none → mkDerive s patches = none) ∧
    (∀ s patches : String, (¬ ∃ p v, ValidSplit (normName s).data p v) →
      mkDerive s patches = none) := by
  refine ⟨by decide, by decide, by decide, by decide, ?_, mkDerive_skip_no_version,
    fun s patches h => mkDerive_skip_no_version s patches (split_name_none_of_no_valid s h)⟩
  intro s p v
  unfold split_name
  cases hr : rSplit (normName s).data with
  | none =>
    simp only [hr]
    constructor
    · intro h
      exact absurd (congrArg Prod.snd h) (by simp)
    · rintro ⟨hval, hmin⟩
      exfalso
      have hsome : rSplit (normName s).data = some (p.data, v.data) :=
        (rSplit_some_iff _ _ _).2 ⟨hval, hmin⟩
      rw [hr] at hsome
      cases hsome
  | some pv =>
    obtain ⟨p0, v0⟩ := pv
    simp only [hr]
    constructor
    · intro h
      have hp : (⟨p0⟩ : String) = p := congrArg Prod.fst h
      have hv : some (⟨v0⟩ : String) = some v := congrArg Prod.snd h
      have hv2 : (⟨v0⟩ : String) = v := by injection hv
      have hpd : p.data = p0 := by rw [← hp]
      have hvd : v.data = v0 := by rw [← hv2]
      obtain ⟨hval0, hmin0⟩ := (rSplit_some_iff _ p0 v0).1 hr
      constructor
      · rw [hpd, hvd]
        exact hval0
      · rw [hpd]
        exact hmin0
    · rintro ⟨hval, hmin⟩
      have hsome : rSplit (normName s).data = some (p.data, v.data) :=
        (rSplit_some_iff _ _ _).2 ⟨hval, hmin⟩
      rw [hr] at hsome
      injection hsome with h2
      injection h2 with ha hb
      rw [ha, hb, strEta, strEta]

/-- Claim C3 (witness): the amended theorem's skip conjunct applied to
`nameonly`, which has no discoverable version. -/
theorem split_name_characterization_witness : mkDerive "nameonly" "" = none :=
  split_name_characterization.2.2.2.2.2.1 "nameonly" "" (by decide)

/-! ## Claim C8 -/

/-- Claim C8 (counterexample): ingesting the same CVE id twice, the later
record listing product `p` in two nodes, leaves the rebuilt index holding
that record twice under `p` — the index is not duplicate-free as claimed. -/
theorem ingest_duplicate_index_counterexample :
    NVD.by_product (ingestTwice emptyStore "CVE-2020-0001" vulnC8a vulnC8b) "p" =
      [vulnC8b, vulnC8b] ∧
    ¬ (NVD.by_product (ingestTwice emptyStore "CVE-2020-0001" vulnC8a vulnC8b) "p").Nodup := by
  constructor
  · rfl
  · decide

/-- Claim C8 (amended): ingesting two records with the same cveId leaves
exactly one stored record under that id — the later one — and after the
index rebuild a record is listed under a product exactly when it is stored
and names that product in some node (no stale entries); the bucket may hold
a record several times when the record names the product in several nodes. -/
theorem ingest_twice_single_record (st : Store) (id : String) (v1 v2 : Vulnerability)
    (hs : st.advisory.Pairwise (fun a b => pyLt a.1 b.1)) :
    ((ingestTwice st id v1 v2).advisory.filter (fun kv => kv.1 == id) = [(id, v2)]) ∧
    alookup id (ingestTwice st id v1 v2).advisory = some v2 ∧
    (∀ p v, v ∈ NVD.by_product (ingestTwice st id v1 v2) p ↔
      ∃ k, (k, v) ∈ (ingestTwice st id v1 v2).advisory ∧ p ∈ v.nodes.map VNode.product) := by
  have hadv : (ingestTwice st id v1 v2).advisory =
      btSet id v2 (btSet id v1 st.advisory) := rfl
  refine ⟨?_, ?_, ?_⟩
  · rw [hadv]
    exact filter_btSet_self (btSet_pairwise hs)
  · rw [hadv]
    exact alookup_btSet_self _ _ _
  · intro p v
    exact mem_by_product_reindex (NVD.add (NVD.add st [(id, v1)]) [(id, v2)])

/-- Claim C8 (witness): the amended theorem applied to the empty store. -/
theorem ingest_twice_single_record_witness :
    ((ingestTwice emptyStore "CVE-2020-0001" vulnC8a vulnC8b).advisory.filter
        (fun kv => kv.1 == "CVE-2020-0001") = [("CVE-2020-0001", vulnC8b)]) ∧
    alookup "CVE-2020-0001" (ingestTwice emptyStore "CVE-2020-0001" vulnC8a vulnC8b).advisory =
      some vulnC8b :=
  have h := ingest_twice_single_record emptyStore "CVE-2020-0001" vulnC8a vulnC8b
    (by simp [emptyStore])
  ⟨h.1, h.2.1⟩

/-! ## Claim C10 -/

/-- Claim C10: `affected` never returns the same record twice, even over an
index bucket holding duplicates; `by_product` returns the empty list, not an
error, for an unindexed product; and an index bucket really can hold the
same record twice (a record listing the product in two nodes). -/
theorem affected_no_duplicates (st : Store) (p ver : String) :
    (NVD.affected st p ver).Nodup ∧
    (alookup p st.by_product = none → NVD.by_product st p = []) ∧
    ¬ (NVD.by_product storeC10 "p").Nodup := by
  refine ⟨?_, ?_, by decide⟩
  · exact nodup_foldl_matchAdd _ _ List.nodup_nil
  · intro h
    unfold NVD.by_product
    rw [h]
    rfl

/-- Claim C10 (witness): the theorem applied to the duplicate-bucket store
and to an unindexed product name. -/
theorem affected_no_duplicates_witness :
    (NVD.affected storeC10 "p" "1").Nodup ∧ NVD.by_product storeC10 "q" = [] :=
  ⟨(affected_no_duplicates storeC10 "p" "1").1,
   (affected_no_duplicates storeC10 "q" "1").2.1 (by decide)⟩

/-! ## Claim C4 -/

/-- Claim C4 (counterexample): `foo-1.2.TAR.GZ` ends with `.tar.gz` after
lower-casing and suffix stripping, but the code checks the extensions on the
raw name, case-sensitively, before lower-casing — so the resolver does not
skip this descriptor and builds an identity with version `1.2.tar.gz`. -/
theorem extension_case_counterexample :
    endsWithL (normName "foo-1.2.TAR.GZ").data ".tar.gz".data = true ∧
    mkDerive "foo-1.2.TAR.GZ" "" = some ⟨"foo-1.2.TAR.GZ", "foo", "1.2.tar.gz", ""⟩ := by
  exact ⟨by decide, by decide⟩

/-- Claim C4 (amended): the archive/patch extension check applies to the raw
descriptor name, case-sensitively, before any lower-casing or `.drv`
stripping: every descriptor whose raw name ends with one of the six
extensions is skipped. -/
theorem raw_extension_skip (name patches : String)
    (h : extensions.any (fun e => endsWithL name.data e.data) = true) :
    mkDerive name patches = none := by
  unfold mkDerive
  rw [if_pos h]

/-- Claim C4 (witness): the amended theorem applied to `foo.tar.gz`. -/
theorem raw_extension_skip_witness : mkDerive "foo.tar.gz" "" = none :=
  raw_extension_skip "foo.tar.gz" "" (by decide)

/-! ## Claim C5 -/

/-- Claim C5 (code bug): for two identities with product names `a` and `b`,
both the less-than and the greater-than operation return True — `__gt__`
returns True when `self.pname < other.pname` (derivation.py line 85) — so
the order is not antisymmetric, whatever the version comparator does. -/
theorem lt_gt_both_true :
    deriveLt ⟨"a-1", "a", "1", ""⟩ ⟨"b-1", "b", "1", ""⟩ = true ∧
    deriveGt ⟨"a-1", "a", "1", ""⟩ ⟨"b-1", "b", "1", ""⟩ = true := by
  exact ⟨by decide, by decide⟩

/-! ## Lemmas about the sync loop -/

theorem updateGo_ok_rebuild (fetch : String → Option String → Option Response)
    (mirror : String) (now : Int) :
    ∀ (archives : List String) (st : Store) (urls : List String)
      (st2 : Store) (urls2 : List String),
      updateGo fetch mirror now archives st urls = Except.ok (st2, urls2) →
      st2.by_product = reindexBP st2.advisory := by
  intro archives
  induction archives with
  | nil =>
    intro st urls st2 urls2 h
    simp only [updateGo] at h
    injection h with h
    have h1 : NVD.reindex st = st2 := congrArg Prod.fst h
    rw [← h1]
    rfl
  | cons a rest ih =>
    intro st urls st2 urls2 h
    simp only [updateGo] at h
    cases hd : download fetch mirror st.meta a now with
    | error e => rw [hd] at h; cases h
    | ok res =>
      obtain ⟨items, meta2⟩ := res
      rw [hd] at h
      exact ih _ _ _ _ h

theorem relevant_archives_fresh {now : Int} {meta : Meta} {available : List String}
    (h : now - meta.last_update < 3600) : relevant_archives now meta available = [] := by
  unfold relevant_archives
  rw [if_pos (by omega)]

/-! ## Claim C6 -/

/-- Claim C6 (counterexample): the 2019 segment times out while the 2020
segment would deliver a fresh advisory, yet the run aborts as a whole: the
update raises, the transaction is rolled back, and the 2020 advisory is not
stored — the sync does not continue with the remaining segments. -/
theorem fetch_failure_counterexample :
    relevant_archives 700000 emptyStore.meta ["2019", "2020"] =
      ["2019", "2020", "modified"] ∧
    fetchC6 (mkUrl "m/" "2020") none ≠ none ∧
    NVD.update fetchC6 "m/" ["2019", "2020"] 700000 emptyStore = Except.error () ∧
    session fetchC6 "m/" ["2019", "2020"] 700000 emptyStore = (emptyStore, []) ∧
    alookup "CVE-2020-0007"
      (session fetchC6 "m/" ["2019", "2020"] 700000 emptyStore).1.advisory = none := by
  refine ⟨by decide, by decide, by rfl, by decide, by decide⟩

theorem updateGo_error_of_segFold (fetch : String → Option String → Option Response)
    (mirror : String) (now : Int) :
    ∀ (pre : List String) (st : Store) (urls : List String) (stMid : Store)
      (a : String) (rest : List String),
      segFold fetch mirror now pre st = Except.ok stMid →
      download fetch mirror stMid.meta a now = Except.error () →
      updateGo fetch mirror now (pre ++ a :: rest) st urls = Except.error () := by
  intro pre
  induction pre with
  | nil =>
    intro st urls stMid a rest h1 h2
    injection h1 with h1
    subst h1
    simp only [List.nil_append, updateGo]
    rw [h2]
  | cons b pb ih =>
    intro st urls stMid a rest h1 h2
    simp only [segFold] at h1
    cases hd : download fetch mirror st.meta b now with
    | error e => rw [hd] at h1; cases h1
    | ok res =>
      obtain ⟨items, meta2⟩ := res
      rw [hd] at h1
      simp only [List.cons_append, updateGo]
      rw [hd]
      exact ih _ _ _ _ _ h1 h2

/-- Claim C6 (amended): a segment fetch failure (timeout or status 400 and
above), at any position in the segment list — in particular after earlier
segments were fetched and ingested — propagates out of the update loop: the
whole sync run aborts, the remaining segments are not processed, and the
transaction is rolled back to the store as it was at entry, so every
previously cached record is retained unchanged and the partial ingest of the
earlier segments is discarded. -/
theorem fetch_failure_aborts (fetch : String → Option String → Option Response)
    (mirror : String) (available : List String) (now : Int) (st : Store)
    (pre : List String) (a : String) (rest : List String) (stMid : Store)
    (h1 : relevant_archives now st.meta available = pre ++ a :: rest)
    (h2 : segFold fetch mirror now pre st = Except.ok stMid)
    (h3 : download fetch mirror stMid.meta a now = Except.error ()) :
    NVD.update fetch mirror available now st = Except.error () ∧
    session fetch mirror available now st = (st, []) := by
  have hupd : NVD.update fetch mirror available now st = Except.error () := by
    unfold NVD.update
    rw [h1]
    exact updateGo_error_of_segFold fetch mirror now pre st [] stMid a rest h2 h3
  refine ⟨hupd, ?_⟩
  unfold session
  rw [hupd]

/-- Claim C6 (witness): the amended theorem applied to a network whose 2020
segment times out after the 2019 segment was downloaded and ingested; the
session still reverts to the entry store, discarding the 2019 advisory. -/
theorem fetch_failure_aborts_witness :
    NVD.update fetchC6b "m/" ["2019", "2020"] 700000 emptyStore = Except.error () ∧
    session fetchC6b "m/" ["2019", "2020"] 700000 emptyStore = (emptyStore, []) :=
  fetch_failure_aborts fetchC6b "m/" ["2019", "2020"] 700000 emptyStore
    ["2019"] "2020" ["modified"] storeC6mid (by decide) (by rfl) (by rfl)

/-! ## Claim C7 -/

/-- Claim C7 (counterexample): after a first run whose only fetch answered
304 Not Modified, the last-update timestamp stays at its old value, so an
immediate second run fetches the modified feed again — it does not perform
zero network fetches. -/
theorem second_run_refetch_counterexample :
    (session fetch304 "m/" [] 7200 emptyStore).2 = ["m/nvdcve-1.1-modified.json.gz"] ∧
    (session fetch304 "m/" [] 7200 (session fetch304 "m/" [] 7200 emptyStore).1).2 =
      ["m/nvdcve-1.1-modified.json.gz"] := by
  exact ⟨by decide, by decide⟩

/-- Claim C7 (amended): a second run performs zero network fetches and keeps
records and product index unchanged whenever the second run's time is within
one hour of the stored last-update timestamp; a fresh 200 download during
the first run establishes this, whereas a 304-only first run does not update
the timestamp. -/
theorem second_run_zero_fetches (fetch : String → Option String → Option Response)
    (mirror : String) (available : List String) (now1 now2 : Int)
    (st0 stu : Store) (urls : List String)
    (h1 : NVD.update fetch mirror available now1 st0 = Except.ok (stu, urls))
    (h2 : now2 - stu.meta.last_update < 3600) :
    (session fetch mirror available now2 (NVD.exitClean stu)).2 = [] ∧
    (session fetch mirror available now2 (NVD.exitClean stu)).1.advisory =
      (NVD.exitClean stu).advisory ∧
    (session fetch mirror available now2 (NVD.exitClean stu)).1.by_product =
      (NVD.exitClean stu).by_product := by
  have hre : relevant_archives now2 (NVD.exitClean stu).meta available = [] :=
    relevant_archives_fresh h2
  have hupd : NVD.update fetch mirror available now2 (NVD.exitClean stu) =
      Except.ok (NVD.reindex (NVD.exitClean stu), []) := by
    unfold NVD.update
    rw [hre]
    rfl
  have hses : session fetch mirror available now2 (NVD.exitClean stu) =
      (NVD.exitClean (NVD.reindex (NVD.exitClean stu)), []) := by
    unfold session
    rw [hupd]
  have hbp : stu.by_product = reindexBP stu.advisory :=
    updateGo_ok_rebuild fetch mirror now1 _ st0 [] stu urls h1
  rw [hses]
  exact ⟨rfl, rfl, hbp.symm⟩

/-- Claim C7 (witness): the amended theorem applied to a first run that made
one fresh empty download at time 700000 and a second run at the same time. -/
theorem second_run_zero_fetches_witness :
    (session fetch200 "m/" [] 700000 (NVD.exitClean storeC7w)).2 = [] ∧
    (session fetch200 "m/" [] 700000 (NVD.exitClean storeC7w)).1.advisory =
      (NVD.exitClean storeC7w).advisory ∧
    (session fetch200 "m/" [] 700000 (NVD.exitClean storeC7w)).1.by_product =
      (NVD.exitClean storeC7w).by_product :=
  second_run_zero_fetches fetch200 "m/" [] 700000 700000 emptyStore storeC7w
    ["m/nvdcve-1.1-modified.json.gz"] (by rfl) (by decide)

/-! ## Claim C9 -/

theorem packCounterAfter_mod : ∀ (n c : Nat), c ≤ 25 →
    packCounterAfter c n = (c + n) % 26 := by
  intro n
  induction n with
  | zero =>
    intro c h
    show c = (c + 0) % 26
    omega
  | succ m ih =>
    intro c h
    show packCounterAfter (shouldPack c).2 m = (c + (m + 1)) % 26
    have h2 : (shouldPack c).2 = (c + 1) % 26 := by
      show (if c + 1 > 25 then ((true, 0) : Bool × Nat) else (false, c + 1)).2 =
        (c + 1) % 26
      split
      · next hc =>
        show 0 = (c + 1) % 26
        omega
      · next hc =>
        show c + 1 = (c + 1) % 26
        omega
    rw [h2, ih _ (by omega)]
    omega

theorem packsOn_true_iff (n : Nat) (h : 1 ≤ n) : packsOn 0 n = true ↔ n % 26 = 0 := by
  unfold packsOn
  rw [packCounterAfter_mod _ _ (by omega)]
  show (if (0 + (n - 1)) % 26 + 1 > 25 then ((true, 0) : Bool × Nat)
    else (false, (0 + (n - 1)) % 26 + 1)).1 = true ↔ n % 26 = 0
  split
  · next hc =>
    show true = true ↔ n % 26 = 0
    constructor
    · intro _
      omega
    · intro _
      rfl
  · next hc =>
    show false = true ↔ n % 26 = 0
    constructor
    · intro hh
      cases hh
    · intro hh
      exfalso
      omega

/-- Claim C9 (counterexample): counting clean sessions from a fresh store,
the 25th session does not trigger packing; the trigger fires only when the
counter exceeds 25, on the 26th session. -/
theorem pack_25th_counterexample : packsOn 0 25 = false ∧ packsOn 0 26 = true := by
  exact ⟨by decide, by decide⟩

/-- Claim C9 (amended): the pack counter advances by one per clean session
and compaction fires exactly on every 26th clean session (the counter must
exceed the threshold of 25), resetting the counter; the clean-exit
bookkeeping changes no stored record or index entry. -/
theorem pack_every_26th_session :
    (∀ n : Nat, 1 ≤ n → (packsOn 0 n = true ↔ n % 26 = 0)) ∧
    (∀ st : Store, (NVD.exitClean st).advisory = st.advisory ∧
      (NVD.exitClean st).by_product = st.by_product) :=
  ⟨fun n h => packsOn_true_iff n h, fun _ => ⟨rfl, rfl⟩⟩

/-- Claim C9 (witness): the amended theorem applied at the 52nd session. -/
theorem pack_every_26th_session_witness : packsOn 0 52 = true :=
  (pack_every_26th_session.1 52 (by decide)).mpr (by decide)

end Vulnix
